import Mathlib

/-!
Verification of the T2H rendering and composition engine.

This file gives a shallow embedding, in Lean 4, of the core algorithms of the
backend (`src/backend/app`): the paper-texture generator, the pipeline
orchestrator's progress accounting, the job state machine, the diagram cache
and converter with its retry loop, the text-imperfection model, the stroke
renderer, and the layer compositor.  Every definition is translated from the
Python source; theorems then settle the specification's claims about it.

Conventions used throughout:
  * Python machine integers are modelled as `ℕ` or `ℤ`; `int(x)` on a
    nonnegative float is `⌊x⌋`, and on a negative one `⌈x⌉` (truncation
    toward zero).
  * A source of randomness (Python's global `random`) is modelled as an
    explicit stream `r : ℕ → ℚ` of draws in `[0,1)` together with a cursor:
    `random.random()` reads one draw, `random.uniform a b` reads one draw
    `u` and yields `a + (b-a)*u`, `random.randint a b` reads one draw `u`
    and yields `a + ⌊u*(b-a+1)⌋`, and `random.choice`/`random.choices`
    read one draw and select by subdivision of `[0,1)`.
  * Python strings are modelled as `List Char`; images as pixel functions
    with rational channels.
-/

namespace T2H

/-! ### Paper texture generator (`services/paper_renderer.py`) -/

/-- The while-loop of `PaperRenderer._draw_lined`
(`y = spacing + 40; while y < h - 20: <draw one rule line>; y += spacing`),
counting iterations.  The comparison `y < h - 20` over Python ints equals
`y + 20 < h` over `ℕ`.  Recursion is by explicit fuel; `linedRuleLines`
supplies fuel `h`, which suffices whenever `1 ≤ spacing`. -/
def linedLoop (spacing h : ℕ) : ℕ → ℕ → ℕ
  | 0, _ => 0
  | fuel + 1, y => if y + 20 < h then linedLoop spacing h fuel (y + spacing) + 1 else 0

/-- Number of sample points of one rule line, `len(range(0, w, 15))`. -/
def linedPointCount (w : ℕ) : ℕ := (w + 14) / 15

/-- Number of horizontal rule lines actually drawn by `_draw_lined` for a
page of width `w` and height `h` at rule spacing `spacing`: each loop
iteration draws its polyline exactly when it has at least two sample points
(`if len(points) > 1`), which depends only on `w`. -/
def linedRuleLines (spacing w h : ℕ) : ℕ :=
  if 1 < linedPointCount w then linedLoop spacing h h (spacing + 40) else 0

theorem linedLoop_closed (s h : ℕ) (hs : 1 ≤ s) :
    ∀ fuel y, h ≤ y + fuel → linedLoop s h fuel y = ((h - 20 - y) + (s - 1)) / s := by
  intro fuel
  induction fuel with
  | zero =>
    intro y hy
    have h1 : h - 20 - y = 0 := by omega
    rw [linedLoop, h1]
    exact (Nat.div_eq_of_lt (by omega)).symm
  | succ n ih =>
    intro y hy
    rw [linedLoop]
    by_cases hc : y + 20 < h
    · rw [if_pos hc, ih (y + s) (by omega)]
      have hd1 : 1 ≤ h - 20 - y := by omega
      have hsub : h - 20 - (y + s) = (h - 20 - y) - s := by omega
      rw [hsub]
      generalize hD : h - 20 - y = d at *
      by_cases hds : d < s
      · have h0 : d - s = 0 := by omega
        rw [h0]
        have hl : (d + (s - 1)) / s = 1 :=
          Nat.div_eq_of_lt_le (by omega) (by omega)
        have hr : (0 + (s - 1)) / s = 0 := Nat.div_eq_of_lt (by omega)
        rw [hl, hr]
      · have h1 : d - s + (s - 1) = (d - 1) := by omega
        have h2 : d + (s - 1) = (d - 1) + s := by omega
        rw [h1, h2, Nat.add_div_right _ (by omega)]
    · rw [if_neg hc]
      have h1 : h - 20 - y = 0 := by omega
      rw [h1]
      exact (Nat.div_eq_of_lt (by omega)).symm

/-- C8 — For lined paper with rule spacing `s ≥ 1` and pixel height `h`, on a
page wide enough for a polyline to have two sample points (`16 ≤ w`), the
number of horizontal rule lines drawn by `_draw_lined` equals `⌊(h − 60)/s⌋`
within `±1` (subtraction truncated at zero for degenerate heights). -/
theorem lined_rule_line_count (s w h : ℕ) (hs : 1 ≤ s) (hw : 16 ≤ w) :
    linedRuleLines s w h ≤ (h - 60) / s + 1 ∧ (h - 60) / s ≤ linedRuleLines s w h + 1 := by
  have hpts : 1 < linedPointCount w := by
    have : 2 ≤ (w + 14) / 15 := by
      have : 30 ≤ w + 14 := by omega
      omega
    simpa [linedPointCount] using this
  have hcount : linedRuleLines s w h = ((h - 20 - (s + 40)) + (s - 1)) / s := by
    rw [linedRuleLines, if_pos hpts]
    exact linedLoop_closed s h hs h (s + 40) (by omega)
  rw [hcount]
  have hsub : h - 20 - (s + 40) = h - 60 - s := by omega
  rw [hsub]
  generalize h - 60 = D
  by_cases hDs : D ≤ s
  · have hnum : (D - s + (s - 1)) / s = 0 := Nat.div_eq_of_lt (by omega)
    rw [hnum]
    have hDiv : D / s ≤ s / s := Nat.div_le_div_right hDs
    have hss : s / s = 1 := Nat.div_self (by omega)
    have hle : D / s ≤ 1 := hss ▸ hDiv
    exact ⟨Nat.zero_le _, by simpa using hle⟩
  · have h1 : D - s + (s - 1) = D - 1 := by omega
    rw [h1]
    constructor
    · exact (Nat.div_le_div_right (by omega)).trans (Nat.le_succ _)
    · have hmono : D / s ≤ ((D - 1) + s) / s := Nat.div_le_div_right (by omega)
      rw [Nat.add_div_right _ (by omega)] at hmono
      exact hmono

/-- Witness for `lined_rule_line_count` at spacing 28 on a 800×1100 page. -/
theorem lined_rule_line_count_witness :
    1 ≤ 28 ∧ 16 ≤ 800 ∧
      (linedRuleLines 28 800 1100 ≤ (1100 - 60) / 28 + 1 ∧
        (1100 - 60) / 28 ≤ linedRuleLines 28 800 1100 + 1) :=
  ⟨by decide, by decide, lined_rule_line_count 28 800 1100 (by decide) (by decide)⟩

/-! ### Pipeline orchestrator progress accounting (`services/processor.py`) -/

/-- Progress values written while processing one page (1-based index `p` of
`n` pages) by `process_document_task`: the page base
`int(5 + (p - 1) / n * 80)` at extraction, then `base + 5` (paper),
`base + 10` (handwriting), `base + 15` only when the page has embedded
images (diagram conversion), and `base + 18` (composition).  For the page
counts involved the float expression equals the exact `5 + 80*(p-1)/n`
rounded down. -/
def pageProgress (n p : ℕ) (hasImages : Bool) : List ℕ :=
  let base := 5 + 80 * (p - 1) / n
  [base, base + 5, base + 10] ++ (if hasImages then [base + 15] else []) ++ [base + 18]

/-- The full sequence of progress values written to the job record by one
successful run of `process_document_task` over `n` pages:
`progress=5` after reading the PDF info, the per-page sub-step values for
`page_num in range(1, num_pages + 1)`, `progress=90` before export, and
`progress=100` on completion. -/
def progressWrites (n : ℕ) (hasImages : ℕ → Bool) : List ℕ :=
  5 :: ((List.range' 1 n).flatMap fun p => pageProgress n p (hasImages p)) ++ [90, 100]

/-- Boolean test that a list of naturals is non-decreasing. -/
def nonDecr : List ℕ → Bool
  | [] => true
  | [_] => true
  | a :: b :: t => decide (a ≤ b) && nonDecr (b :: t)

theorem nonDecr_iff : ∀ l : List ℕ, nonDecr l = true ↔ l.Chain' (· ≤ ·)
  | [] => by simp [nonDecr]
  | [a] => by simp [nonDecr]
  | a :: b :: t => by
    rw [nonDecr, List.chain'_cons, Bool.and_eq_true, decide_eq_true_iff,
      nonDecr_iff (b :: t)]

/-- The per-page progress writes, re-indexed over an explicit list of
per-page image flags (`bs.head` is the flag of page `p`). -/
def pagesFrom (n : ℕ) : ℕ → List Bool → List ℕ
  | _, [] => []
  | p, b :: bs => pageProgress n p b ++ pagesFrom n (p + 1) bs

theorem flatMap_pageProgress (n : ℕ) (f : ℕ → Bool) :
    ∀ k p, ((List.range' p k).flatMap fun i => pageProgress n i (f i)) =
      pagesFrom n p ((List.range' p k).map f) := by
  intro k
  induction k with
  | zero => intro p; rfl
  | succ k ih => intro p; rw [List.range'_succ]; simp [pagesFrom, ih]

/-- C3 (counterexample) — with 5 pages (none carrying images) the orchestrator
writes progress 23 at the composition step of page 1 and then progress 21 at
the extraction step of page 2: the written sequence is not monotonically
non-decreasing. -/
theorem progress_not_monotone_five_pages :
    ¬ (progressWrites 5 (fun _ => false)).Chain' (· ≤ ·) ∧
      progressWrites 5 (fun _ => false) =
        [5, 5, 10, 15, 23, 21, 26, 31, 39, 37, 42, 47, 55, 53, 58, 63, 71,
         69, 74, 79, 87, 90, 100] := by
  constructor
  · intro hc
    exact absurd ((nonDecr_iff _).mpr hc) (by decide)
  · decide

/-- C3 (amended) — for a job of at most 4 pages, the progress values written
by a successful run of `process_document_task` form a monotonically
non-decreasing sequence of integers in `[0, 100]` that ends at 100; for 5 or
more pages monotonicity fails (`progress_not_monotone_five_pages`). -/
theorem progress_monotone_up_to_four_pages (n : ℕ) (f : ℕ → Bool) (hn : n ≤ 4) :
    (progressWrites n f).Chain' (· ≤ ·) ∧
      (∀ x ∈ progressWrites n f, x ≤ 100) ∧
      (progressWrites n f).getLast? = some 100 := by
  obtain ⟨bs, hlen, hbridge⟩ :
      ∃ bs : List Bool, bs.length = n ∧
        progressWrites n f = 5 :: pagesFrom n 1 bs ++ [90, 100] :=
    ⟨(List.range' 1 n).map f, by simp,
      by rw [progressWrites, flatMap_pageProgress]⟩
  rw [hbridge]
  interval_cases n
  · rcases bs with _ | ⟨b1, bs⟩
    · exact ⟨(nonDecr_iff _).mp (by decide), by decide, by decide⟩
    · simp at hlen
  · rcases bs with _ | ⟨b1, _ | ⟨b2, bs⟩⟩ <;> simp at hlen
    cases b1 <;>
      exact ⟨(nonDecr_iff _).mp (by decide), by decide, by decide⟩
  · rcases bs with _ | ⟨b1, _ | ⟨b2, _ | ⟨b3, bs⟩⟩⟩ <;> simp at hlen
    cases b1 <;> cases b2 <;>
      exact ⟨(nonDecr_iff _).mp (by decide), by decide, by decide⟩
  · rcases bs with _ | ⟨b1, _ | ⟨b2, _ | ⟨b3, _ | ⟨b4, bs⟩⟩⟩⟩ <;> simp at hlen
    cases b1 <;> cases b2 <;> cases b3 <;>
      exact ⟨(nonDecr_iff _).mp (by decide), by decide, by decide⟩
  · rcases bs with _ | ⟨b1, _ | ⟨b2, _ | ⟨b3, _ | ⟨b4, _ | ⟨b5, bs⟩⟩⟩⟩⟩ <;> simp at hlen
    cases b1 <;> cases b2 <;> cases b3 <;> cases b4 <;>
      exact ⟨(nonDecr_iff _).mp (by decide), by decide, by decide⟩

/-- Witness for `progress_monotone_up_to_four_pages` on a 2-page job whose
first page carries images. -/
theorem progress_monotone_up_to_four_pages_witness :
    (2 ≤ 4) ∧
      ((progressWrites 2 (fun p => p == 1)).Chain' (· ≤ ·) ∧
        (∀ x ∈ progressWrites 2 (fun p => p == 1), x ≤ 100) ∧
        (progressWrites 2 (fun p => p == 1)).getLast? = some 100) :=
  ⟨by decide, progress_monotone_up_to_four_pages 2 (fun p => p == 1) (by decide)⟩

/-! ### Job state machine (`models.py`, `api.py::process_document`) -/

/-- Job status values of `models.JobStatus`. -/
inductive JobStatus
  | uploaded
  | processing
  | completed
  | failed
deriving DecidableEq

/-- The job-record fields read or written by the start-processing endpoint. -/
structure Job where
  status : JobStatus
  config : Option ℕ
  progress : ℕ
  currentStage : String
deriving DecidableEq

/-- The start-processing endpoint `api.process_document`: 404 when the job is
missing; 400 when the job is already Processing or already Completed (its
record is left untouched); otherwise the job is moved to Processing with the
supplied config, progress 0 and stage "Starting...", and the background task
is queued. -/
def processDocument (job : Option Job) (cfg : ℕ) : Except (ℕ × String) (Job × String) :=
  match job with
  | none => .error (404, "Job not found")
  | some j =>
    if j.status = .processing then .error (400, "Job is already processing")
    else if j.status = .completed then .error (400, "Job already completed")
    else
      .ok ({ j with
              status := .processing
              config := some cfg
              progress := 0
              currentStage := "Starting..." },
        "Processing started. Use /status endpoint to track progress.")

/-- C4 (counterexample) — Failed is not terminal: start-processing on a job in
state Failed succeeds and transitions it back to Processing, mutating its
record (here a failed job with progress 55 is reset to Processing at
progress 0). -/
theorem failed_job_is_restarted :
    processDocument (some ⟨.failed, none, 55, "Failed"⟩) 7 =
      .ok (⟨.processing, some 7, 0, "Starting..."⟩,
        "Processing started. Use /status endpoint to track progress.") ∧
      JobStatus.processing ≠ JobStatus.failed := by
  constructor
  · rfl
  · decide

/-- C4 (amended) — only Processing and Completed are guarded: start-processing
on a job already Processing or already Completed is refused with a 400 error
and does not mutate the record, while start-processing on a Failed job is
accepted and transitions it back to Processing (so Completed is terminal for
this operation, but Failed is not). -/
theorem start_processing_guards (j : Job) (cfg : ℕ) :
    (j.status = .processing →
        processDocument (some j) cfg = .error (400, "Job is already processing")) ∧
      (j.status = .completed →
        processDocument (some j) cfg = .error (400, "Job already completed")) ∧
      (j.status = .failed →
        processDocument (some j) cfg =
          .ok ({ j with
                  status := .processing
                  config := some cfg
                  progress := 0
                  currentStage := "Starting..." },
            "Processing started. Use /status endpoint to track progress.")) := by
  refine ⟨fun h => ?_, fun h => ?_, fun h => ?_⟩
  · simp [processDocument, h]
  · simp [processDocument, h]
  · simp [processDocument, h]

/-- Witness for `start_processing_guards` at a concrete completed job and a
concrete failed job. -/
theorem start_processing_guards_witness :
    (processDocument (some ⟨.completed, some 1, 100, "Completed"⟩) 3 =
        .error (400, "Job already completed")) ∧
      (processDocument (some ⟨.failed, none, 40, "Failed"⟩) 3 =
        .ok (⟨.processing, some 3, 0, "Starting..."⟩,
          "Processing started. Use /status endpoint to track progress.")) :=
  ⟨(start_processing_guards ⟨.completed, some 1, 100, "Completed"⟩ 3).2.1 rfl,
    (start_processing_guards ⟨.failed, none, 40, "Failed"⟩ 3).2.2 rfl⟩

/-! ### Diagram cache and converter (`services/diagram_converter.py`, `models.py`) -/

/-- One outcome of an Imagen API attempt: an HTTP response with a status code
and an optional decoded image payload (the payload is `some` exactly when the
response is 200 with a nonempty prediction and base64 field), or a raised
transport exception. -/
inductive ApiResp
  | http (status : ℕ) (payload : Option ℕ)
  | exn
deriving DecidableEq

/-- Result of `DiagramConverter._call_imagen`: the optional converted image,
the list of back-off sleep durations (seconds) in order, and the number of
loop iterations that ran. -/
structure CallResult where
  result : Option ℕ
  sleeps : List ℕ
  attempts : ℕ
deriving DecidableEq

/-- The `for attempt in range(3)` retry loop of `_call_imagen`, at attempt
index `a` with `rem` iterations of budget left (the loop starts at
`attemptLoop resp 0 3`).  Status 200 with a payload returns it; 200 without a
usable payload falls through and retries without sleeping; 429 sleeps
`2 ** attempt` and retries; any other status breaks out of the loop; a raised
exception sleeps `2 ** attempt` and retries unless this was the final attempt
(`if attempt < 2`). -/
def attemptLoop (resp : ℕ → ApiResp) : ℕ → ℕ → CallResult
  | _, 0 => ⟨none, [], 0⟩
  | a, rem + 1 =>
    match resp a with
    | .exn =>
      if rem = 0 then ⟨none, [], 1⟩
      else
        let r := attemptLoop resp (a + 1) rem
        ⟨r.result, 2 ^ a :: r.sleeps, r.attempts + 1⟩
    | .http status payload =>
      if status = 200 then
        match payload with
        | some img => ⟨some img, [], 1⟩
        | none =>
          let r := attemptLoop resp (a + 1) rem
          ⟨r.result, r.sleeps, r.attempts + 1⟩
      else if status = 429 then
        let r := attemptLoop resp (a + 1) rem
        ⟨r.result, 2 ^ a :: r.sleeps, r.attempts + 1⟩
      else ⟨none, [], 1⟩

/-- A diagram dict as handed to `DiagramConverter._convert_single`: content
hash, optional PIL image (`"image"` key) and optional raw bytes
(`"image_bytes"` key), both modelled by numeric content ids. -/
structure Diagram where
  image_hash : String
  image : Option ℕ
  image_bytes : Option ℕ
deriving DecidableEq

/-- `DiagramConverter._call_imagen`: returns `None` immediately when the
diagram has neither `image_bytes` nor `image` to encode; otherwise runs the
three-attempt loop. -/
def callImagen (d : Diagram) (resp : ℕ → ApiResp) : CallResult :=
  if d.image_bytes.isSome then attemptLoop resp 0 3
  else if d.image.isSome then attemptLoop resp 0 3
  else ⟨none, [], 0⟩

/-- A Python value stored under the `"converted_image"` key: either a PIL
image or raw bytes. -/
inductive PyVal
  | img (id : ℕ)
  | bytes (id : ℕ)
deriving DecidableEq

/-- A row of the `diagram_cache` table (`models.DiagramCache`); `image_hash`
carries a UNIQUE constraint (`models.py`, line 57). -/
structure CacheEntry where
  image_hash : String
  diagram_type : String
  original_path : String
  converted_path : String
  created_at : ℕ
  last_accessed : ℕ
deriving DecidableEq

/-- The on-disk blob store, path ↦ blob content. -/
abbrev FS := List (String × ℕ)

/-- Outcome of `_convert_single`: the fields it sets on the diagram dict and
the updated file store and index table. -/
structure ConvOutcome where
  converted_image : Option PyVal
  from_cache : Bool
  warning : Option String
  fs : FS
  db : Option (List CacheEntry)
deriving DecidableEq

/-- `self.cache_dir / f"[hash].png"`. -/
def cachedPath (h : String) : String := "diagrams/" ++ h ++ ".png"

/-- `self.cache_dir / f"[hash]_original.png"`. -/
def origPath (h : String) : String := "diagrams/" ++ h ++ "_original.png"

/-- Update of `cache_entry.last_accessed` on the first index row found for a
hash, as done by the DB-cache hit path of `_convert_single`. -/
def touchFirst (now : ℕ) (h : String) : List CacheEntry → List CacheEntry
  | [] => []
  | e :: es =>
    if e.image_hash == h then { e with last_accessed := now } :: es
    else e :: touchFirst now h es

/-- Steps 3 onward of `_convert_single` (both cache levels missed): no or
placeholder API key degrades to the original with a warning; otherwise the
Imagen call runs, a success persists the blob (and original) and appends a
new index row — the append raises `IntegrityError` when a row with the same
hash already exists, by the UNIQUE constraint of `models.DiagramCache` —
and a failed call falls back to the original image with a warning. -/
def convertMiss (fs : FS) (db : Option (List CacheEntry)) (apiKey : String)
    (resp : ℕ → ApiResp) (now : ℕ) (d : Diagram) : Except String ConvOutcome :=
  if apiKey = "" ∨ apiKey = "your_api_key_here" then
    .ok ⟨(match d.image with
          | some i => some (.img i)
          | none => d.image_bytes.map .bytes),
      false, some "No Imagen API key configured. Using original.", fs, db⟩
  else
    match (callImagen d resp).result with
    | some img =>
      let fs1 := (cachedPath d.image_hash, img) :: fs
      match db with
      | some entries =>
        let fs2 := match d.image with
          | some i => (origPath d.image_hash, i) :: fs1
          | none => fs1
        if entries.any (fun e => e.image_hash == d.image_hash) then
          .error "IntegrityError: UNIQUE constraint failed on diagram_cache.image_hash"
        else
          .ok ⟨some (.img img), false, none, fs2,
            some (entries ++ [⟨d.image_hash, "generic", origPath d.image_hash,
              cachedPath d.image_hash, now, now⟩])⟩
      | none => .ok ⟨some (.img img), false, none, fs1, none⟩
    | none =>
      .ok ⟨d.image.map .img, false,
        some "AI conversion failed. Using original.", fs, db⟩

/-- `DiagramConverter._convert_single`: the file-cache check, then the
DB-index check (a hit requires the referenced blob to exist, and touches
`last_accessed`; an index row whose blob is missing falls through to a
miss), then `convertMiss`. -/
def convertSingle (fs : FS) (db : Option (List CacheEntry)) (apiKey : String)
    (resp : ℕ → ApiResp) (now : ℕ) (d : Diagram) : Except String ConvOutcome :=
  match fs.lookup (cachedPath d.image_hash) with
  | some blob => .ok ⟨some (.img blob), true, none, fs, db⟩
  | none =>
    match db with
    | some entries =>
      match entries.find? (fun e => e.image_hash == d.image_hash) with
      | some e =>
        match fs.lookup e.converted_path with
        | some blob =>
          .ok ⟨some (.img blob), true, none, fs,
            some (touchFirst now d.image_hash entries)⟩
        | none => convertMiss fs db apiKey resp now d
      | none => convertMiss fs db apiKey resp now d
    | none => convertMiss fs db apiKey resp now d

/-- A stale index row for hash `"h1"`: it references the canonical blob path,
but the theorem below runs it against an empty file store. -/
def staleEntry : CacheEntry :=
  ⟨"h1", "generic", origPath "h1", cachedPath "h1", 0, 0⟩

/-- C1 — evaluation at the failing input: with an index row present for the
hash but its blob missing from the file store, a configured API key, and a
successful stylization, `_convert_single` regenerates the blob but then
appends a second index row for the same hash, which violates the UNIQUE
constraint on `diagram_cache.image_hash` and raises out of the
diagram-conversion stage instead of overwriting the stale entry. -/
theorem cache_selfheal_raises_integrity_error :
    convertSingle [] (some [staleEntry]) "key"
        (fun _ => .http 200 (some 42)) 1 ⟨"h1", some 7, some 5⟩ =
      .error "IntegrityError: UNIQUE constraint failed on diagram_cache.image_hash" := by
  rfl

/-- An HTTP 429 rate-limit signal. -/
def ApiResp.isRateLimit : ApiResp → Bool
  | .http 429 _ => true
  | _ => false

/-- A 200 response carrying a usable image payload. -/
def ApiResp.isSuccess200 : ApiResp → Bool
  | .http 200 (some _) => true
  | _ => false

/-- An HTTP response that is neither 200 nor the 429 rate-limit signal: the
loop breaks on these. -/
def isHardError : ApiResp → Bool
  | .http s _ => (s != 200) && (s != 429)
  | .exn => false

/-- The sleep the loop performs after attempt `a`, if any: `2 ** a` after a
429, `2 ** a` after an exception except on the final attempt (`a < 2` with a
budget of 3), nothing otherwise. -/
def sleepTag (resp : ℕ → ApiResp) (a : ℕ) : Option ℕ :=
  match resp a with
  | .http 429 _ => some (2 ^ a)
  | .exn => if a < 2 then some (2 ^ a) else none
  | _ => none

theorem attemptLoop_attempts_le (resp : ℕ → ApiResp) :
    ∀ rem a, (attemptLoop resp a rem).attempts ≤ rem := by
  intro rem
  induction rem with
  | zero => intro a; simp [attemptLoop]
  | succ rem ih =>
    intro a
    rw [attemptLoop]
    cases h : resp a with
    | exn =>
      by_cases h0 : rem = 0
      · simp [h0]
      · simp only [if_neg h0]
        exact Nat.succ_le_succ (ih (a + 1))
    | http s p =>
      by_cases h200 : s = 200
      · cases p with
        | some img => simp [h200]
        | none =>
          simp only [if_pos h200]
          exact Nat.succ_le_succ (ih (a + 1))
      · by_cases h429 : s = 429
        · simp only [if_neg h200, if_pos h429]
          exact Nat.succ_le_succ (ih (a + 1))
        · simp [h200, h429]

theorem attemptLoop_sleeps (resp : ℕ → ApiResp) :
    ∀ rem a, a + rem = 3 →
      (attemptLoop resp a rem).sleeps =
        (List.range' a (attemptLoop resp a rem).attempts).filterMap (sleepTag resp) := by
  intro rem
  induction rem with
  | zero => intro a ha; simp [attemptLoop]
  | succ rem ih =>
    intro a ha
    rw [attemptLoop]
    cases h : resp a with
    | exn =>
      by_cases h0 : rem = 0
      · have ha2 : a = 2 := by omega
        subst ha2
        simp [h0, h, sleepTag, List.range'_one]
      · have hlt : a < 2 := by omega
        simp [h0, h, sleepTag, hlt, List.range'_succ, ih (a + 1) (by omega)]
    | http s p =>
      by_cases h200 : s = 200
      · subst h200
        cases p with
        | some img => simp [h, sleepTag, List.range'_one]
        | none => simp [h, sleepTag, List.range'_succ, ih (a + 1) (by omega)]
      · by_cases h429 : s = 429
        · subst h429
          simp [h, h200, sleepTag, List.range'_succ, ih (a + 1) (by omega)]
        · simp [h, h200, h429, sleepTag, List.range'_one]

theorem attemptLoop_exn (resp : ℕ → ApiResp) (a rem : ℕ) (h : resp a = .exn) :
    attemptLoop resp a (rem + 1) =
      if rem = 0 then ⟨none, [], 1⟩
      else ⟨(attemptLoop resp (a + 1) rem).result,
        2 ^ a :: (attemptLoop resp (a + 1) rem).sleeps,
        (attemptLoop resp (a + 1) rem).attempts + 1⟩ := by
  rw [attemptLoop, h]

theorem attemptLoop_200some (resp : ℕ → ApiResp) (a rem img : ℕ)
    (h : resp a = .http 200 (some img)) :
    attemptLoop resp a (rem + 1) = ⟨some img, [], 1⟩ := by
  rw [attemptLoop, h]
  rfl

theorem attemptLoop_200none (resp : ℕ → ApiResp) (a rem : ℕ)
    (h : resp a = .http 200 none) :
    attemptLoop resp a (rem + 1) =
      ⟨(attemptLoop resp (a + 1) rem).result,
        (attemptLoop resp (a + 1) rem).sleeps,
        (attemptLoop resp (a + 1) rem).attempts + 1⟩ := by
  rw [attemptLoop, h]
  rfl

theorem attemptLoop_429 (resp : ℕ → ApiResp) (a rem : ℕ) (p : Option ℕ)
    (h : resp a = .http 429 p) :
    attemptLoop resp a (rem + 1) =
      ⟨(attemptLoop resp (a + 1) rem).result,
        2 ^ a :: (attemptLoop resp (a + 1) rem).sleeps,
        (attemptLoop resp (a + 1) rem).attempts + 1⟩ := by
  rw [attemptLoop, h]
  rfl

theorem attemptLoop_hard (resp : ℕ → ApiResp) (a rem s : ℕ) (p : Option ℕ)
    (h : resp a = .http s p) (h200 : s ≠ 200) (h429 : s ≠ 429) :
    attemptLoop resp a (rem + 1) = ⟨none, [], 1⟩ := by
  rw [attemptLoop, h]
  dsimp only
  rw [if_neg h200, if_neg h429]

theorem attemptLoop_hard_error_stops (resp : ℕ → ApiResp) :
    ∀ rem a k, k < (attemptLoop resp a rem).attempts → isHardError (resp (a + k)) = true →
      (attemptLoop resp a rem).attempts = k + 1 ∧ (attemptLoop resp a rem).result = none := by
  intro rem
  induction rem with
  | zero => intro a k hk _; simp [attemptLoop] at hk
  | succ rem ih =>
    intro a k hk hhard
    cases h : resp a with
    | exn =>
      rw [attemptLoop_exn resp a rem h] at hk ⊢
      by_cases h0 : rem = 0
      · rw [if_pos h0] at hk ⊢
        have hk1 : k < 1 := hk
        have hk0 : k = 0 := by omega
        subst hk0
        rw [Nat.add_zero, h] at hhard
        simp [isHardError] at hhard
      · rw [if_neg h0] at hk ⊢
        cases k with
        | zero =>
          rw [Nat.add_zero, h] at hhard
          simp [isHardError] at hhard
        | succ k =>
          have hk2 : k < (attemptLoop resp (a + 1) rem).attempts := by
            have hk1 : k + 1 < (attemptLoop resp (a + 1) rem).attempts + 1 := hk
            omega
          have hh2 : isHardError (resp (a + 1 + k)) = true := by
            have hadd : a + 1 + k = a + (k + 1) := by omega
            rw [hadd]; exact hhard
          obtain ⟨he1, he2⟩ := ih (a + 1) k hk2 hh2
          refine ⟨?_, ?_⟩
          · show (attemptLoop resp (a + 1) rem).attempts + 1 = k + 1 + 1
            rw [he1]
          · show (attemptLoop resp (a + 1) rem).result = none
            exact he2
    | http s p =>
      by_cases h200 : s = 200
      · subst h200
        cases p with
        | some img =>
          rw [attemptLoop_200some resp a rem img h] at hk ⊢
          have hk1 : k < 1 := hk
          have hk0 : k = 0 := by omega
          subst hk0
          rw [Nat.add_zero, h] at hhard
          simp [isHardError] at hhard
        | none =>
          rw [attemptLoop_200none resp a rem h] at hk ⊢
          cases k with
          | zero =>
            rw [Nat.add_zero, h] at hhard
            simp [isHardError] at hhard
          | succ k =>
            have hk2 : k < (attemptLoop resp (a + 1) rem).attempts := by
              have hk1 : k + 1 < (attemptLoop resp (a + 1) rem).attempts + 1 := hk
              omega
            have hh2 : isHardError (resp (a + 1 + k)) = true := by
              have hadd : a + 1 + k = a + (k + 1) := by omega
              rw [hadd]; exact hhard
            obtain ⟨he1, he2⟩ := ih (a + 1) k hk2 hh2
            refine ⟨?_, ?_⟩
            · show (attemptLoop resp (a + 1) rem).attempts + 1 = k + 1 + 1
              rw [he1]
            · show (attemptLoop resp (a + 1) rem).result = none
              exact he2
      · by_cases h429 : s = 429
        · subst h429
          rw [attemptLoop_429 resp a rem p h] at hk ⊢
          cases k with
          | zero =>
            rw [Nat.add_zero, h] at hhard
            simp [isHardError] at hhard
          | succ k =>
            have hk2 : k < (attemptLoop resp (a + 1) rem).attempts := by
              have hk1 : k + 1 < (attemptLoop resp (a + 1) rem).attempts + 1 := hk
              omega
            have hh2 : isHardError (resp (a + 1 + k)) = true := by
              have hadd : a + 1 + k = a + (k + 1) := by omega
              rw [hadd]; exact hhard
            obtain ⟨he1, he2⟩ := ih (a + 1) k hk2 hh2
            refine ⟨?_, ?_⟩
            · show (attemptLoop resp (a + 1) rem).attempts + 1 = k + 1 + 1
              rw [he1]
            · show (attemptLoop resp (a + 1) rem).result = none
              exact he2
        · rw [attemptLoop_hard resp a rem s p h h200 h429] at hk ⊢
          have hk1 : k < 1 := hk
          have hk0 : k = 0 := by omega
          subst hk0
          exact ⟨rfl, rfl⟩

/-- C2 (counterexample) — a transport exception is a failure that is neither a
rate-limit signal nor a success, yet it does not terminate the attempt loop
early: with every attempt raising, the loop runs all 3 attempts (sleeping
1s then 2s between them) instead of stopping after the first failure. -/
theorem exception_failure_does_not_stop_loop :
    callImagen ⟨"h2", none, some 5⟩ (fun _ => .exn) = ⟨none, [1, 2], 3⟩ ∧
      ApiResp.isRateLimit .exn = false ∧ ApiResp.isSuccess200 .exn = false := by
  exact ⟨rfl, rfl, rfl⟩

/-- C2 (amended) — the `_call_imagen` loop makes at most 3 attempts; every
back-off sleep is `2 ** attempt` seconds and occurs exactly after a 429
rate-limit response, or after a transport exception that is not on the final
attempt (a non-final exception retries with the same exponential back-off
rather than ending the loop); an HTTP error response that is neither 200 nor
429 terminates the attempt loop immediately with no result; and when the
loop produces no image, `_convert_single` (with a configured API key) falls
back to the original image annotated with a warning instead of raising. -/
theorem imagen_retry_policy (d : Diagram) (resp : ℕ → ApiResp) (fs : FS)
    (db : Option (List CacheEntry)) (apiKey : String) (now : ℕ) :
    (callImagen d resp).attempts ≤ 3 ∧
      (callImagen d resp).sleeps =
        (List.range' 0 (callImagen d resp).attempts).filterMap (sleepTag resp) ∧
      (∀ k, k < (callImagen d resp).attempts → isHardError (resp k) = true →
        (callImagen d resp).attempts = k + 1 ∧ (callImagen d resp).result = none) ∧
      (apiKey ≠ "" → apiKey ≠ "your_api_key_here" →
        (callImagen d resp).result = none →
        convertMiss fs db apiKey resp now d =
          .ok ⟨d.image.map .img, false,
            some "AI conversion failed. Using original.", fs, db⟩) := by
  have hcall : callImagen d resp = attemptLoop resp 0 3 ∨
      callImagen d resp = ⟨none, [], 0⟩ := by
    rw [callImagen]
    by_cases hb : d.image_bytes.isSome
    · rw [if_pos hb]; exact Or.inl rfl
    · rw [if_neg hb]
      by_cases hi : d.image.isSome
      · rw [if_pos hi]; exact Or.inl rfl
      · rw [if_neg hi]; exact Or.inr rfl
  have hmiss : apiKey ≠ "" → apiKey ≠ "your_api_key_here" →
      (callImagen d resp).result = none →
      convertMiss fs db apiKey resp now d =
        .ok ⟨d.image.map .img, false,
          some "AI conversion failed. Using original.", fs, db⟩ := by
    intro h1 h2 hnone
    rw [convertMiss, if_neg (by simp [h1, h2]), hnone]
  rcases hcall with hc | hc <;> rw [hc]
  · exact ⟨attemptLoop_attempts_le resp 3 0,
      attemptLoop_sleeps resp 3 0 rfl,
      fun k hk hh => attemptLoop_hard_error_stops resp 3 0 k hk
        (by simpa using hh),
      by rw [← hc]; exact hmiss⟩
  · refine ⟨by simp, by simp, fun k hk _ => by simp at hk, by rw [← hc]; exact hmiss⟩

/-- A concrete response schedule: 429, then an exception, then a 500. -/
def respW : ℕ → ApiResp :=
  fun a => if a = 0 then .http 429 none else if a = 1 then .exn else .http 500 none

/-- Witness for `imagen_retry_policy`: a 429, then an exception, then a hard
500 error; the loop runs 3 attempts, sleeps `[1, 2]`, stops on the 500 with
no result, and `_convert_single` falls back to the original image. -/
theorem imagen_retry_policy_witness :
    (callImagen ⟨"h3", some 9, none⟩ respW).attempts ≤ 3 ∧
      (callImagen ⟨"h3", some 9, none⟩ respW).sleeps =
        (List.range' 0 (callImagen ⟨"h3", some 9, none⟩ respW).attempts).filterMap
          (sleepTag respW) ∧
      ((callImagen ⟨"h3", some 9, none⟩ respW).attempts = 2 + 1 ∧
        (callImagen ⟨"h3", some 9, none⟩ respW).result = none) ∧
      convertMiss [] none "key" respW 0 ⟨"h3", some 9, none⟩ =
        .ok ⟨some (.img 9), false,
          some "AI conversion failed. Using original.", [], none⟩ :=
  ⟨(imagen_retry_policy ⟨"h3", some 9, none⟩ respW [] none "key" 0).1,
    (imagen_retry_policy ⟨"h3", some 9, none⟩ respW [] none "key" 0).2.1,
    (imagen_retry_policy ⟨"h3", some 9, none⟩ respW [] none "key" 0).2.2.1 2
      (by decide) (by decide),
    (imagen_retry_policy ⟨"h3", some 9, none⟩ respW [] none "key" 0).2.2.2
      (by decide) (by decide) (by decide)⟩

/-! ### Imperfection model (`services/handwriting_engine.py`) -/

/-- Python `str.split()` with no separator: the maximal whitespace-free runs
of the string, in order (whitespace is discarded and never yields an empty
piece).  Strings are `List Char`; the grouping is computed by a right fold. -/
def splitChunks (cs : List Char) : List (List Char) :=
  cs.foldr (fun c acc =>
    if c.isWhitespace then [] :: acc
    else match acc with
      | [] => [[c]]
      | w :: ws => (c :: w) :: ws) [[]]

/-- `text.split()` as used by `_apply_imperfections`. -/
def pySplitW (cs : List Char) : List (List Char) :=
  (splitChunks cs).filter (fun w => !w.isEmpty)

/-- Defect kind of a text segment (the `"type"` key of a segment dict). -/
inductive SegType
  | normal
  | error
  | strikethrough
  | erasure
deriving DecidableEq

/-- A text segment as produced by `_apply_imperfections`: rendered text,
defect kind, and the original word for `error`/`strikethrough` segments
(the `"correction"` key). -/
structure Segment where
  text : List Char
  type : SegType
  correction : Option (List Char) := none
deriving DecidableEq

/-- `random.randint a b` driven by one uniform draw `u ∈ [0,1)`. -/
def randNat (a b : ℕ) (u : ℚ) : ℕ :=
  a + (⌊u * ((b : ℚ) - (a : ℚ) + 1)⌋).toNat

/-- The fixed keyboard-adjacency table of `_make_spelling_error`. -/
def nearbyKey : Char → Option Char
  | 'a' => some 's'
  | 's' => some 'a'
  | 'd' => some 's'
  | 'e' => some 'r'
  | 'r' => some 't'
  | 't' => some 'y'
  | 'i' => some 'o'
  | 'o' => some 'p'
  | 'n' => some 'm'
  | 'm' => some 'n'
  | _ => none

/-- `HandwritingEngine._make_spelling_error` over the draw stream `r`
starting at cursor `i`; returns the mutated word and the next cursor.
`random.choice` among the four mutation kinds reads one draw (`⌊4u⌋`); the
chosen branch reads one `randint` draw, except that a branch whose length
guard fails falls through the `elif` chain and returns the word unchanged
after only the choice draw, exactly as in the source (`swap`/`miss` carry
guards; a word shorter than 3 is returned unchanged with no draw). -/
def makeSpellingError (w : List Char) (r : ℕ → ℚ) (i : ℕ) : List Char × ℕ :=
  if w.length < 3 then (w, i)
  else
    let k := (⌊r i * 4⌋).toNat
    if k = 0 ∧ 3 ≤ w.length then
      let pos := randNat 1 (w.length - 2) (r (i + 1))
      (w.take pos ++ [w.getD (pos + 1) 'a', w.getD pos 'a'] ++ w.drop (pos + 2), i + 2)
    else if k = 1 then
      let pos := randNat 0 (w.length - 1) (r (i + 1))
      (w.take pos ++ [w.getD pos 'a'] ++ w.drop pos, i + 2)
    else if k = 2 ∧ 4 ≤ w.length then
      let pos := randNat 1 (w.length - 2) (r (i + 1))
      (w.take pos ++ w.drop (pos + 1), i + 2)
    else if k = 3 then
      let pos := randNat 0 (w.length - 1) (r (i + 1))
      let ch := (w.getD pos 'a').toLower
      let rep0 := (nearbyKey ch).getD ch
      let rep := if (w.getD pos 'a').isUpper then rep0.toUpper else rep0
      (w.take pos ++ [rep] ++ w.drop (pos + 1), i + 2)
    else (w, i + 1)

/-- The probability threshold 0.4 of `random.choices` as an explicit reduced
fraction (the kernel cannot evaluate decimal `ℚ` literals, so the cumulative
weights 0.4 and 0.8 are written as `2/5` and `4/5` in normal form). -/
def rat04 : ℚ := ⟨2, 5, by decide, by decide⟩

/-- The cumulative probability threshold 0.8 (`0.4 + 0.4`) in normal form. -/
def rat08 : ℚ := ⟨4, 5, by decide, by decide⟩

/-- The rational one half in normal form, used as a concrete draw value. -/
def qhalf : ℚ := ⟨1, 2, by decide, by decide⟩

/-- The word loop of `HandwritingEngine._apply_imperfections` over the split
words, threading the draw cursor: an all-whitespace word becomes a `" "`
segment without a draw (dead code after `split()`, kept for fidelity); every
other word draws a roll, and a roll below the imperfection probability on a
word longer than 2 draws a weighted mistake choice
(`spelling 0.4 / strikethrough 0.4 / erasure 0.2`, via the cumulative
thresholds of `random.choices`). -/
def applyWords (p : ℚ) (r : ℕ → ℚ) : List (List Char) → ℕ → List Segment × ℕ
  | [], i => ([], i)
  | w :: ws, i =>
    if w.all Char.isWhitespace then
      let rest := applyWords p r ws i
      (⟨[' '], .normal, none⟩ :: rest.1, rest.2)
    else
      let roll := r i
      if roll < p ∧ 2 < w.length then
        let u := r (i + 1)
        if u < rat04 then
          let m := makeSpellingError w r (i + 2)
          let rest := applyWords p r ws m.2
          (⟨m.1, .error, some w⟩ :: rest.1, rest.2)
        else if u < rat08 then
          let rest := applyWords p r ws (i + 2)
          (⟨w, .strikethrough, some w⟩ :: rest.1, rest.2)
        else
          let rest := applyWords p r ws (i + 2)
          (⟨w, .erasure, none⟩ :: rest.1, rest.2)
      else
        let rest := applyWords p r ws (i + 1)
        (⟨w, .normal, none⟩ :: rest.1, rest.2)

/-- `HandwritingEngine._apply_imperfections` on one line of raw text. -/
def applyImperfections (p : ℚ) (r : ℕ → ℚ) (text : List Char) : List Segment :=
  (applyWords p r (pySplitW text) 0).1

/-- Number of random draws consumed by `_apply_imperfections`. -/
def drawsUsed (p : ℚ) (r : ℕ → ℚ) (text : List Char) : ℕ :=
  (applyWords p r (pySplitW text) 0).2

/-- The word a segment stands for: the correction when present (error and
strikethrough segments), otherwise its rendered text. -/
def Segment.original (s : Segment) : List Char :=
  s.correction.getD s.text

/-- The word-and-whitespace tokenization of a line, following the
specification's words for C7: the maximal runs of whitespace and of
non-whitespace characters, in order. -/
def wsTokens (cs : List Char) : List (List Char) :=
  cs.foldr (fun c acc =>
    match acc with
    | [] => [[c]]
    | w :: ws =>
      match w with
      | [] => [c] :: ws
      | d :: _ =>
        if c.isWhitespace == d.isWhitespace then (c :: w) :: ws
        else [c] :: w :: ws) []

theorem splitChunks_chars (cs : List Char) :
    ∀ w ∈ splitChunks cs, ∀ c ∈ w, ¬ c.isWhitespace := by
  induction cs with
  | nil =>
    intro w hw c hc
    simp [splitChunks] at hw
    subst hw
    simp at hc
  | cons a cs ih =>
    intro w hw c hc
    have hstep : splitChunks (a :: cs) =
        if a.isWhitespace then [] :: splitChunks cs
        else match splitChunks cs with
          | [] => [[a]]
          | w :: ws => (a :: w) :: ws := rfl
    rw [hstep] at hw
    by_cases ha : a.isWhitespace
    · rw [if_pos ha] at hw
      rcases List.mem_cons.mp hw with h | h
      · subst h; simp at hc
      · exact ih w h c hc
    · rw [if_neg ha] at hw
      cases hs : splitChunks cs with
      | nil =>
        rw [hs] at hw
        simp at hw
        subst hw
        simp at hc
        subst hc
        exact ha
      | cons w0 ws0 =>
        rw [hs] at hw
        rcases List.mem_cons.mp hw with h | h
        · subst h
          rcases List.mem_cons.mp hc with h2 | h2
          · subst h2; exact ha
          · exact ih w0 (hs ▸ List.mem_cons_self w0 ws0) c h2
        · exact ih w (hs ▸ List.mem_cons_of_mem w0 h) c hc

theorem pySplitW_pieces (cs : List Char) :
    ∀ w ∈ pySplitW cs, w ≠ [] ∧ ∀ c ∈ w, ¬ c.isWhitespace := by
  intro w hw
  rw [pySplitW, List.mem_filter] at hw
  refine ⟨by simpa using hw.2, splitChunks_chars cs w hw.1⟩

theorem applyWords_map_original (p : ℚ) (r : ℕ → ℚ) :
    ∀ ws i, (∀ w ∈ ws, w.all Char.isWhitespace = false) →
      ((applyWords p r ws i).1).map Segment.original = ws := by
  intro ws
  induction ws with
  | nil => intro i _; rfl
  | cons w ws ih =>
    intro i h
    have hw : w.all Char.isWhitespace = false := h w (by simp)
    have ht : ∀ v ∈ ws, v.all Char.isWhitespace = false :=
      fun v hv => h v (by simp [hv])
    simp only [applyWords]
    rw [if_neg (by simp [hw])]
    by_cases hc1 : r i < p ∧ 2 < w.length
    · rw [if_pos hc1]
      by_cases hc2 : r (i + 1) < rat04
      · rw [if_pos hc2]
        simp [Segment.original, ih _ ht]
      · rw [if_neg hc2]
        by_cases hc3 : r (i + 1) < rat08
        · rw [if_pos hc3]
          simp [Segment.original, ih _ ht]
        · rw [if_neg hc3]
          simp [Segment.original, ih _ ht]
    · rw [if_neg hc1]
      simp [Segment.original, ih _ ht]

/-- C7 (counterexample) — on the line `"a b"` the imperfection model emits
exactly the two word segments `"a"` and `"b"`: the whitespace token between
them is produced by no segment, so the output does not cover every word and
whitespace token of the input. -/
theorem imperfections_drop_whitespace_tokens :
    (applyImperfections 0 (fun _ => qhalf) ['a', ' ', 'b']).map Segment.text =
        [['a'], ['b']] ∧
      wsTokens ['a', ' ', 'b'] = [['a'], [' '], ['b']] ∧
      (applyImperfections 0 (fun _ => qhalf) ['a', ' ', 'b']).map Segment.text ≠
        wsTokens ['a', ' ', 'b'] := by
  refine ⟨by decide, by decide, by decide⟩

/-- C7 (amended) — for every input line, imperfection probability and random
source, the Imperfection Model outputs one segment per whitespace-delimited
word of the input, in the original order (each segment's underlying word —
its correction for error/strikethrough segments, its text otherwise — is the
corresponding input word); whitespace tokens are discarded by `text.split()`
and are not covered by any segment. -/
theorem imperfections_cover_words (p : ℚ) (r : ℕ → ℚ) (text : List Char) :
    (applyImperfections p r text).map Segment.original = pySplitW text := by
  rw [applyImperfections]
  apply applyWords_map_original
  intro w hw
  obtain ⟨hne, hchars⟩ := pySplitW_pieces text w hw
  cases w with
  | nil => exact absurd rfl hne
  | cons c t =>
    have hc : c.isWhitespace = false :=
      Bool.eq_false_iff.mpr (hchars c (List.mem_cons_self c t))
    simp [List.all_cons, hc]

theorem mse_snd_bounds (w : List Char) (r : ℕ → ℚ) (i : ℕ) :
    i ≤ (makeSpellingError w r i).2 ∧ (makeSpellingError w r i).2 ≤ i + 2 := by
  simp only [makeSpellingError]
  split_ifs <;> refine ⟨?_, ?_⟩ <;> simp

theorem mse_snd_ge (w : List Char) (r : ℕ → ℚ) (i : ℕ) (h3 : ¬ w.length < 3) :
    i + 1 ≤ (makeSpellingError w r i).2 := by
  simp only [makeSpellingError, if_neg h3]
  split_ifs <;> simp

theorem mse_agree (w : List Char) (r1 r2 : ℕ → ℚ) (i : ℕ)
    (hag : ∀ k, i ≤ k → k < (makeSpellingError w r1 i).2 → r1 k = r2 k) :
    makeSpellingError w r1 i = makeSpellingError w r2 i := by
  by_cases h3 : w.length < 3
  · rw [makeSpellingError, makeSpellingError, if_pos h3, if_pos h3]
  · have h0 : r1 i = r2 i :=
      hag i le_rfl (by have := mse_snd_ge w r1 i h3; omega)
    simp only [makeSpellingError, if_neg h3]
    rw [← h0]
    by_cases hA : (⌊r1 i * 4⌋).toNat = 0 ∧ 3 ≤ w.length
    · rw [if_pos hA, if_pos hA]
      have hsnd : (makeSpellingError w r1 i).2 = i + 2 := by
        simp only [makeSpellingError, if_neg h3, if_pos hA]
      have h1 : r1 (i + 1) = r2 (i + 1) :=
        hag (i + 1) (by omega) (by rw [hsnd]; omega)
      rw [h1]
    · rw [if_neg hA, if_neg hA]
      by_cases hB : (⌊r1 i * 4⌋).toNat = 1
      · rw [if_pos hB, if_pos hB]
        have hsnd : (makeSpellingError w r1 i).2 = i + 2 := by
          simp only [makeSpellingError, if_neg h3, if_neg hA, if_pos hB]
        have h1 : r1 (i + 1) = r2 (i + 1) :=
          hag (i + 1) (by omega) (by rw [hsnd]; omega)
        rw [h1]
      · rw [if_neg hB, if_neg hB]
        by_cases hC : (⌊r1 i * 4⌋).toNat = 2 ∧ 4 ≤ w.length
        · rw [if_pos hC, if_pos hC]
          have hsnd : (makeSpellingError w r1 i).2 = i + 2 := by
            simp only [makeSpellingError, if_neg h3, if_neg hA, if_neg hB, if_pos hC]
          have h1 : r1 (i + 1) = r2 (i + 1) :=
            hag (i + 1) (by omega) (by rw [hsnd]; omega)
          rw [h1]
        · rw [if_neg hC, if_neg hC]
          by_cases hD : (⌊r1 i * 4⌋).toNat = 3
          · rw [if_pos hD, if_pos hD]
            have hsnd : (makeSpellingError w r1 i).2 = i + 2 := by
              simp only [makeSpellingError, if_neg h3, if_neg hA, if_neg hB,
                if_neg hC, if_pos hD]
            have h1 : r1 (i + 1) = r2 (i + 1) :=
              hag (i + 1) (by omega) (by rw [hsnd]; omega)
            rw [h1]
          · rw [if_neg hD, if_neg hD]

theorem applyWords_snd_mono (p : ℚ) (r : ℕ → ℚ) :
    ∀ ws i, i ≤ (applyWords p r ws i).2 := by
  intro ws
  induction ws with
  | nil => intro i; exact le_rfl
  | cons w ws ih =>
    intro i
    rw [applyWords]
    by_cases hws : w.all Char.isWhitespace = true
    · rw [if_pos hws]
      exact ih i
    · rw [if_neg hws]
      by_cases hc1 : r i < p ∧ 2 < w.length
      · rw [if_pos hc1]
        by_cases hc2 : r (i + 1) < rat04
        · rw [if_pos hc2]
          have hm := (mse_snd_bounds w r (i + 2)).1
          exact le_trans (by omega) (le_trans hm (ih _))
        · rw [if_neg hc2]
          by_cases hc3 : r (i + 1) < rat08
          · rw [if_pos hc3]
            exact le_trans (by omega) (ih (i + 2))
          · rw [if_neg hc3]
            exact le_trans (by omega) (ih (i + 2))
      · rw [if_neg hc1]
        exact le_trans (by omega) (ih (i + 1))

theorem applyWords_agree (p : ℚ) (r1 r2 : ℕ → ℚ) :
    ∀ ws i, (∀ k, i ≤ k → k < (applyWords p r1 ws i).2 → r1 k = r2 k) →
      applyWords p r1 ws i = applyWords p r2 ws i := by
  intro ws
  induction ws with
  | nil => intro i _; rfl
  | cons w ws ih =>
    intro i hag
    by_cases hws : w.all Char.isWhitespace = true
    · have hsnd : (applyWords p r1 (w :: ws) i).2 = (applyWords p r1 ws i).2 := by
        rw [applyWords, if_pos hws]
      have hrec : applyWords p r1 ws i = applyWords p r2 ws i :=
        ih i (fun k hk1 hk2 => hag k hk1 (by rw [hsnd]; exact hk2))
      rw [applyWords, applyWords, if_pos hws, if_pos hws, hrec]
    · have hend1 : i + 1 ≤ (applyWords p r1 (w :: ws) i).2 := by
        rw [applyWords, if_neg hws]
        by_cases hc1 : r1 i < p ∧ 2 < w.length
        · rw [if_pos hc1]
          by_cases hc2 : r1 (i + 1) < rat04
          · rw [if_pos hc2]
            have hm := (mse_snd_bounds w r1 (i + 2)).1
            exact le_trans (by omega)
              (le_trans hm (applyWords_snd_mono p r1 ws _))
          · rw [if_neg hc2]
            by_cases hc3 : r1 (i + 1) < rat08
            · rw [if_pos hc3]
              exact le_trans (by omega) (applyWords_snd_mono p r1 ws (i + 2))
            · rw [if_neg hc3]
              exact le_trans (by omega) (applyWords_snd_mono p r1 ws (i + 2))
        · rw [if_neg hc1]
          exact applyWords_snd_mono p r1 ws (i + 1)
      have h0 : r1 i = r2 i := hag i le_rfl (by omega)
      rw [applyWords, applyWords, if_neg hws, if_neg hws, ← h0]
      by_cases hc1 : r1 i < p ∧ 2 < w.length
      · rw [if_pos hc1, if_pos hc1]
        have hend2 : i + 2 ≤ (applyWords p r1 (w :: ws) i).2 := by
          rw [applyWords, if_neg hws, if_pos hc1]
          by_cases hc2 : r1 (i + 1) < rat04
          · rw [if_pos hc2]
            have hm := (mse_snd_bounds w r1 (i + 2)).1
            exact le_trans hm (applyWords_snd_mono p r1 ws _)
          · rw [if_neg hc2]
            by_cases hc3 : r1 (i + 1) < rat08
            · rw [if_pos hc3]
              exact applyWords_snd_mono p r1 ws (i + 2)
            · rw [if_neg hc3]
              exact applyWords_snd_mono p r1 ws (i + 2)
        have h1 : r1 (i + 1) = r2 (i + 1) := hag (i + 1) (by omega) (by omega)
        rw [← h1]
        by_cases hc2 : r1 (i + 1) < rat04
        · rw [if_pos hc2, if_pos hc2]
          have hEnd : (applyWords p r1 (w :: ws) i).2 =
              (applyWords p r1 ws (makeSpellingError w r1 (i + 2)).2).2 := by
            rw [applyWords, if_neg hws, if_pos hc1, if_pos hc2]
          have hm : makeSpellingError w r1 (i + 2) = makeSpellingError w r2 (i + 2) :=
            mse_agree w r1 r2 (i + 2) (fun k hk1 hk2 =>
              hag k (by omega)
                (by
                  rw [hEnd]
                  exact lt_of_lt_of_le hk2 (applyWords_snd_mono p r1 ws _)))
          have hm2 := (mse_snd_bounds w r1 (i + 2)).1
          have hrec : applyWords p r1 ws (makeSpellingError w r1 (i + 2)).2 =
              applyWords p r2 ws (makeSpellingError w r1 (i + 2)).2 :=
            ih _ (fun k hk1 hk2 => hag k (by omega) (by rw [hEnd]; exact hk2))
          rw [← hm]
          simp only [hrec]
        · rw [if_neg hc2, if_neg hc2]
          by_cases hc3 : r1 (i + 1) < rat08
          · rw [if_pos hc3, if_pos hc3]
            have hEnd : (applyWords p r1 (w :: ws) i).2 =
                (applyWords p r1 ws (i + 2)).2 := by
              rw [applyWords, if_neg hws, if_pos hc1, if_neg hc2, if_pos hc3]
            have hrec : applyWords p r1 ws (i + 2) = applyWords p r2 ws (i + 2) :=
              ih _ (fun k hk1 hk2 => hag k (by omega) (by rw [hEnd]; exact hk2))
            simp only [hrec]
          · rw [if_neg hc3, if_neg hc3]
            have hEnd : (applyWords p r1 (w :: ws) i).2 =
                (applyWords p r1 ws (i + 2)).2 := by
              rw [applyWords, if_neg hws, if_pos hc1, if_neg hc2, if_neg hc3]
            have hrec : applyWords p r1 ws (i + 2) = applyWords p r2 ws (i + 2) :=
              ih _ (fun k hk1 hk2 => hag k (by omega) (by rw [hEnd]; exact hk2))
            simp only [hrec]
      · rw [if_neg hc1, if_neg hc1]
        have hEnd : (applyWords p r1 (w :: ws) i).2 =
            (applyWords p r1 ws (i + 1)).2 := by
          rw [applyWords, if_neg hws, if_neg hc1]
        have hrec : applyWords p r1 ws (i + 1) = applyWords p r2 ws (i + 1) :=
          ih _ (fun k hk1 hk2 => hag k (by omega) (by rw [hEnd]; exact hk2))
        simp only [hrec]

/-- C9 — the Imperfection Model is deterministic given a fixed random source:
two runs with the same input text and the same imperfection probability whose
random sources agree on every draw the run consumes (in particular, two runs
with an identical sequence of random draws) produce identical segment
sequences and consume the same number of draws. -/
theorem imperfection_model_deterministic (p : ℚ) (text : List Char)
    (r1 r2 : ℕ → ℚ) (hag : ∀ i, i < drawsUsed p r1 text → r1 i = r2 i) :
    applyImperfections p r1 text = applyImperfections p r2 text ∧
      drawsUsed p r1 text = drawsUsed p r2 text := by
  have h := applyWords_agree p r1 r2 (pySplitW text) 0
    (fun k _ hk2 => hag k hk2)
  exact ⟨by rw [applyImperfections, applyImperfections, h],
    by rw [drawsUsed, drawsUsed, h]⟩

/-- A draw stream that is constant at one half. -/
def rW1 : ℕ → ℚ := fun _ => qhalf

/-- A draw stream agreeing with `rW1` on the first two draws only. -/
def rW2 : ℕ → ℚ := fun i => if i < 2 then qhalf else 0

/-- Witness for `imperfection_model_deterministic` on the line `"ab cd"` with
probability 0: the run consumes two draws, and any source agreeing on those
two draws produces the same two Normal segments. -/
theorem imperfection_model_deterministic_witness :
    (applyImperfections 0 rW1 ['a', 'b', ' ', 'c', 'd'] =
        applyImperfections 0 rW2 ['a', 'b', ' ', 'c', 'd'] ∧
      drawsUsed 0 rW1 ['a', 'b', ' ', 'c', 'd'] =
        drawsUsed 0 rW2 ['a', 'b', ' ', 'c', 'd']) ∧
      applyImperfections 0 rW1 ['a', 'b', ' ', 'c', 'd'] =
        [⟨['a', 'b'], .normal, none⟩, ⟨['c', 'd'], .normal, none⟩] :=
  ⟨imperfection_model_deterministic 0 ['a', 'b', ' ', 'c', 'd'] rW1 rW2
      (fun i hi => by
        have h2 : drawsUsed 0 rW1 ['a', 'b', ' ', 'c', 'd'] = 2 := by decide
        rw [h2] at hi
        simp [rW1, rW2, hi]),
    by decide⟩

/-! ### Layer compositor (`services/layout_composer.py`) -/

/-- An RGBA pixel with exact rational channels in `[0, 255]`. -/
structure RGBA where
  r : ℚ
  g : ℚ
  b : ℚ
  a : ℚ
deriving DecidableEq

/-- An opaque RGB pixel (no alpha channel exists). -/
structure RGB where
  r : ℚ
  g : ℚ
  b : ℚ
deriving DecidableEq

/-- An RGBA raster: pixel dimensions and a pixel function. -/
structure ImgRGBA where
  w : ℕ
  h : ℕ
  px : ℕ → ℕ → RGBA

/-- An opaque RGB raster (PIL mode `"RGB"`). -/
structure ImgRGB where
  w : ℕ
  h : ℕ
  px : ℕ → ℕ → RGB

/-- `Image.convert("RGBA")` on an opaque image: alpha 255 everywhere. -/
def ImgRGB.toRGBA (im : ImgRGB) : ImgRGBA :=
  ⟨im.w, im.h, fun i j => ⟨(im.px i j).r, (im.px i j).g, (im.px i j).b, 255⟩⟩

/-- `Image.convert("RGB")`: the alpha channel is discarded and the raster
becomes opaque. -/
def ImgRGBA.toRGB (im : ImgRGBA) : ImgRGB :=
  ⟨im.w, im.h, fun i j => ⟨(im.px i j).r, (im.px i j).g, (im.px i j).b⟩⟩

/-- PIL `Image.alpha_composite bg fg`: the Porter-Duff "over" operator with
straight alpha, pixelwise.  PIL requires equal sizes; the result carries the
background's dimensions. -/
def alphaComposite (bg fg : ImgRGBA) : ImgRGBA :=
  ⟨bg.w, bg.h, fun i j =>
    let f := fg.px i j
    let b := bg.px i j
    let af := f.a / 255
    let ab := b.a / 255
    let oa := af + ab * (1 - af)
    ⟨(f.r * af + b.r * ab * (1 - af)) / oa,
      (f.g * af + b.g * ab * (1 - af)) / oa,
      (f.b * af + b.b * ab * (1 - af)) / oa,
      oa * 255⟩⟩

/-- PIL `bg.paste(fg, (x, y), fg)` with the pasted raster as its own alpha
mask: inside the intersection of the page and the target rectangle each band
(alpha included) is interpolated by the mask alpha,
`dst * (1 - a/255) + src * (a/255)`; everything else — including all of the
rectangle lying outside the page, which has no pixel coordinates — is
unchanged, so out-of-bounds content is cropped and the page keeps the
background's dimensions. -/
def paste (bg fg : ImgRGBA) (x y : ℤ) : ImgRGBA :=
  ⟨bg.w, bg.h, fun i j =>
    if x ≤ (i : ℤ) ∧ (i : ℤ) < x + fg.w ∧ y ≤ (j : ℤ) ∧ (j : ℤ) < y + fg.h then
      let s := fg.px ((i : ℤ) - x).toNat ((j : ℤ) - y).toNat
      let b := bg.px i j
      let m := s.a / 255
      ⟨s.r * m + b.r * (1 - m),
        s.g * m + b.g * (1 - m),
        s.b * m + b.b * (1 - m),
        s.a * m + b.a * (1 - m)⟩
    else bg.px i j⟩

/-- Python `int()` truncation toward zero on an exact rational. -/
def truncQ (q : ℚ) : ℤ := if 0 ≤ q then ⌊q⌋ else ⌈q⌉

/-- A diagram dict as consumed by `LayoutComposer.compose_page`: the
converted raster — `None` or non-image entries are skipped by the loop, and
raw bytes are first decoded by `Image.open`, so the model holds the decoded
raster directly — plus the optional `x`/`y`/`width`/`height` keys with the
`diagram.get(...)` defaults of the source. -/
structure CDiagram where
  converted : Option ImgRGBA := none
  x : Option ℚ := none
  y : Option ℚ := none
  width : Option ℚ := none
  height : Option ℚ := none

/-- One iteration of the diagram loop of `compose_page`: skip a missing
raster; otherwise scale the target rectangle by `scale` (Python `int()`),
resize the raster to it and paste it at its position with itself as the
alpha mask.  `resizeFn` abstracts PIL `Image.resize` (LANCZOS resampling),
whose result has the requested dimensions. -/
def pasteDiagram (resizeFn : ImgRGBA → ℕ → ℕ → ImgRGBA) (scale : ℚ)
    (page : ImgRGBA) (d : CDiagram) : ImgRGBA :=
  match d.converted with
  | none => page
  | some img =>
    let x := truncQ ((d.x.getD 0) * scale)
    let y := truncQ ((d.y.getD 0) * scale)
    let w := (truncQ ((d.width.getD (img.w : ℚ)) * scale)).toNat
    let h := (truncQ ((d.height.getD (img.h : ℚ)) * scale)).toNat
    paste page (resizeFn img w h) x y

/-- `LayoutComposer.compose_page` before the final `convert("RGB")`: the
paper converted to RGBA, the text layer resized to the paper's size when
their sizes differ and alpha-composited over it, then every diagram pasted
in original list order. -/
def composePageRGBA (resizeFn : ImgRGBA → ℕ → ℕ → ImgRGBA) (paper : ImgRGB)
    (textLayer : ImgRGBA) (diagrams : List CDiagram) (scale : ℚ) : ImgRGBA :=
  let page := paper.toRGBA
  let tl := if textLayer.w = page.w ∧ textLayer.h = page.h then textLayer
    else resizeFn textLayer page.w page.h
  let page1 := alphaComposite page tl
  diagrams.foldl (pasteDiagram resizeFn scale) page1

/-- `LayoutComposer.compose_page`: the full composite, returned as an opaque
RGB raster. -/
def composePage (resizeFn : ImgRGBA → ℕ → ℕ → ImgRGBA) (paper : ImgRGB)
    (textLayer : ImgRGBA) (diagrams : List CDiagram) (scale : ℚ) : ImgRGB :=
  (composePageRGBA resizeFn paper textLayer diagrams scale).toRGB

theorem foldl_pasteDiagram_dims (resizeFn : ImgRGBA → ℕ → ℕ → ImgRGBA)
    (scale : ℚ) :
    ∀ (ds : List CDiagram) (page : ImgRGBA),
      (ds.foldl (pasteDiagram resizeFn scale) page).w = page.w ∧
        (ds.foldl (pasteDiagram resizeFn scale) page).h = page.h := by
  intro ds
  induction ds with
  | nil => intro page; exact ⟨rfl, rfl⟩
  | cons d ds ih =>
    intro page
    rw [List.foldl_cons]
    have hd : (pasteDiagram resizeFn scale page d).w = page.w ∧
        (pasteDiagram resizeFn scale page d).h = page.h := by
      rw [pasteDiagram]
      cases d.converted with
      | none => exact ⟨rfl, rfl⟩
      | some img => exact ⟨rfl, rfl⟩
    obtain ⟨ih1, ih2⟩ := ih (pasteDiagram resizeFn scale page d)
    exact ⟨ih1.trans hd.1, ih2.trans hd.2⟩

/-- C6 — pasting a diagram is a hard overwrite inside its alpha-mask region:
at every page pixel of the target rectangle where the (resized) diagram's
alpha is the full 255, the paste replaces the underlying page pixel with the
diagram pixel outright, regardless of the paper/text content beneath (the
result does not mention the background pixel at all); and `compose_page`
returns the composite as an opaque RGB raster, the alpha channel being
discarded by the final `convert("RGB")`. -/
theorem diagram_paste_hard_overwrite (bg fg : ImgRGBA) (x y : ℤ) (i j : ℕ)
    (resizeFn : ImgRGBA → ℕ → ℕ → ImgRGBA) (paper : ImgRGB)
    (textLayer : ImgRGBA) (diagrams : List CDiagram) (scale : ℚ) :
    ((x ≤ (i : ℤ) ∧ (i : ℤ) < x + fg.w ∧ y ≤ (j : ℤ) ∧ (j : ℤ) < y + fg.h) →
        (fg.px ((i : ℤ) - x).toNat ((j : ℤ) - y).toNat).a = 255 →
        (paste bg fg x y).px i j =
          fg.px ((i : ℤ) - x).toNat ((j : ℤ) - y).toNat) ∧
      composePage resizeFn paper textLayer diagrams scale =
        (composePageRGBA resizeFn paper textLayer diagrams scale).toRGB := by
  constructor
  · intro hin ha
    rw [paste]
    dsimp only
    rw [if_pos hin]
    rcases hs : fg.px ((i : ℤ) - x).toNat ((j : ℤ) - y).toNat with ⟨sr, sg, sb, sa⟩
    rw [hs] at ha
    simp only at ha
    subst ha
    have hm : (255 : ℚ) / 255 = 1 := by norm_num
    simp [hm]
  · rfl

/-- Witness for `diagram_paste_hard_overwrite` on 1×1 rasters: a fully
opaque diagram pixel replaces the underlying pixel exactly. -/
theorem diagram_paste_hard_overwrite_witness :
    (paste ⟨1, 1, fun _ _ => ⟨1, 2, 3, 255⟩⟩ ⟨1, 1, fun _ _ => ⟨9, 8, 7, 255⟩⟩
        0 0).px 0 0 =
      (⟨1, 1, fun _ _ => (⟨9, 8, 7, 255⟩ : RGBA)⟩ : ImgRGBA).px
        (((0 : ℕ) : ℤ) - 0).toNat (((0 : ℕ) : ℤ) - 0).toNat :=
  (diagram_paste_hard_overwrite ⟨1, 1, fun _ _ => ⟨1, 2, 3, 255⟩⟩
      ⟨1, 1, fun _ _ => ⟨9, 8, 7, 255⟩⟩ 0 0 0 0 (fun im _ _ => im)
      ⟨1, 1, fun _ _ => ⟨0, 0, 0⟩⟩ ⟨1, 1, fun _ _ => ⟨0, 0, 0, 0⟩⟩ [] 1).1
    (by refine ⟨by decide, ?_, by decide, ?_⟩ <;> decide) rfl

/-- C10 — for every paper raster, text layer and diagram list (including
diagrams whose target rectangles are larger than the page or lie partly or
wholly outside it), `compose_page` returns an opaque RGB raster whose pixel
dimensions equal the paper's; a paste never changes the page dimensions, and
every page pixel outside the target rectangle is untouched (out-of-bounds
diagram content is cropped). -/
theorem compose_page_dims (resizeFn : ImgRGBA → ℕ → ℕ → ImgRGBA)
    (paper : ImgRGB) (textLayer : ImgRGBA) (diagrams : List CDiagram)
    (scale : ℚ) (bg fg : ImgRGBA) (x y : ℤ) (i j : ℕ) :
    (composePage resizeFn paper textLayer diagrams scale).w = paper.w ∧
      (composePage resizeFn paper textLayer diagrams scale).h = paper.h ∧
      (paste bg fg x y).w = bg.w ∧ (paste bg fg x y).h = bg.h ∧
      (¬ (x ≤ (i : ℤ) ∧ (i : ℤ) < x + fg.w ∧ y ≤ (j : ℤ) ∧ (j : ℤ) < y + fg.h) →
        (paste bg fg x y).px i j = bg.px i j) := by
  obtain ⟨h1, h2⟩ := foldl_pasteDiagram_dims resizeFn scale diagrams
    (alphaComposite paper.toRGBA
      (if textLayer.w = paper.toRGBA.w ∧ textLayer.h = paper.toRGBA.h then textLayer
        else resizeFn textLayer paper.toRGBA.w paper.toRGBA.h))
  refine ⟨h1, h2, rfl, rfl, ?_⟩
  intro hout
  rw [paste]
  dsimp only
  rw [if_neg hout]

/-- Witness for `compose_page_dims`: a 3-wide diagram pasted at x = −2 on a
2×2 page leaves the pixel at column 1 outside the rectangle... the rectangle
covers columns −2..0, so page pixel (1, 0) is unchanged. -/
theorem compose_page_dims_witness :
    (composePage (fun im _ _ => im) ⟨2, 2, fun _ _ => ⟨5, 5, 5⟩⟩
        ⟨2, 2, fun _ _ => ⟨0, 0, 0, 0⟩⟩ [] 1).w = 2 ∧
      (paste ⟨2, 2, fun _ _ => ⟨1, 1, 1, 255⟩⟩ ⟨3, 1, fun _ _ => ⟨9, 9, 9, 255⟩⟩
          (-2) 0).px 1 0 =
        (⟨2, 2, fun _ _ => (⟨1, 1, 1, 255⟩ : RGBA)⟩ : ImgRGBA).px 1 0 :=
  ⟨(compose_page_dims (fun im _ _ => im) ⟨2, 2, fun _ _ => ⟨5, 5, 5⟩⟩
      ⟨2, 2, fun _ _ => ⟨0, 0, 0, 0⟩⟩ [] 1 ⟨2, 2, fun _ _ => ⟨1, 1, 1, 255⟩⟩
      ⟨3, 1, fun _ _ => ⟨9, 9, 9, 255⟩⟩ (-2) 0 1 0).1,
    (compose_page_dims (fun im _ _ => im) ⟨2, 2, fun _ _ => ⟨5, 5, 5⟩⟩
      ⟨2, 2, fun _ _ => ⟨0, 0, 0, 0⟩⟩ [] 1 ⟨2, 2, fun _ _ => ⟨1, 1, 1, 255⟩⟩
      ⟨3, 1, fun _ _ => ⟨9, 9, 9, 255⟩⟩ (-2) 0 1 0).2.2.2.2
      (by decide)⟩

/-! ### Stroke renderer (`HandwritingEngine._render_line`) -/

/-- `random.uniform a b` driven by one draw `u ∈ [0,1)`. -/
def uniform (a b u : ℚ) : ℚ := a + (b - a) * u

/-- A text bounding box as returned by `draw.textbbox`. -/
structure BBox where
  x0 : ℚ
  y0 : ℚ
  x1 : ℚ
  y1 : ℚ
deriving DecidableEq

/-- An abstract PIL text metric: the width of a string rendered at a font
size, and the vertical extent (top and bottom offsets from the anchor) of a
font at that size.  PIL's actual glyph metrics are external to this
repository; the renderer's geometry is stated for every metric. -/
structure FontMetric where
  width : ℚ → List Char → ℚ
  top : ℚ → ℚ
  bottom : ℚ → ℚ

/-- `draw.textbbox((px, py), t, font)` under an abstract metric. -/
def textbbox (fm : FontMetric) (size : ℚ) (pos : ℚ × ℚ) (t : List Char) : BBox :=
  ⟨pos.1, pos.2 + fm.top size, pos.1 + fm.width size t, pos.2 + fm.bottom size⟩

/-- A recorded `ImageDraw` call: `draw.text` with its position, text, font
size and RGBA fill, or `draw.line` with its point list, fill and width. -/
inductive DrawOp
  | text (pos : ℚ × ℚ) (txt : List Char) (fontSize : ℚ) (fill : ℚ × ℚ × ℚ × ℚ)
  | line (pts : List (ℚ × ℚ)) (fill : ℚ × ℚ × ℚ × ℚ) (width : ℕ)
deriving DecidableEq

/-- Renderer configuration: `font_size`, DPI `scale` and the `ink_color`
RGB components. -/
structure RenderCfg where
  fontSize : ℕ
  scale : ℚ
  inkR : ℚ
  inkG : ℚ
  inkB : ℚ

/-- The annotation font size, `int(self.font_size * 0.75)`. -/
def RenderCfg.smallSize (cfg : RenderCfg) : ℕ := 3 * cfg.fontSize / 4

/-- `range(a, b, 4)` over Python ints. -/
def rangeZ (a b : ℤ) : List ℤ :=
  (List.range (((b - a).toNat + 3) / 4)).map fun k => (a + 4 * k : ℤ)

/-- One iteration of the segment loop of `HandwritingEngine._render_line` at
draw cursor `i`: position jitter (two draws), pressure (one draw,
`alpha = int(255 * pressure)`), then the per-kind draw calls —
`strikethrough` adds a wavy line sampled every 4 px (one draw per sample
point, drawn only when there are at least two points) and the correction
above; `error` draws the word, a straight light line at the vertical
midpoint of its bounding box, and the correction above in the small font;
`erasure` draws a faded ghost then an offset rewrite; `normal` draws once —
and finally the cursor advance by the measured width plus a random gap.
Returns the emitted draw ops, the new cursor x and the next draw index. -/
def renderSegment (fm : FontMetric) (cfg : RenderCfg) (r : ℕ → ℚ) (i : ℕ)
    (cursorX y : ℚ) (seg : Segment) : List DrawOp × ℚ × ℕ :=
  let jx := uniform (-2) 2 (r i) * cfg.scale
  let jy := uniform (-(3/2)) (3/2) (r (i + 1)) * cfg.scale
  let pressure := uniform (3/4) 1 (r (i + 2))
  let alpha : ℚ := ((⌊255 * pressure⌋ : ℤ) : ℚ)
  let ink := (cfg.inkR, cfg.inkG, cfg.inkB, alpha)
  let posX := cursorX + jx
  let posY := y + jy
  let fs : ℚ := (cfg.fontSize : ℚ)
  let b := textbbox fm fs (posX, posY) seg.text
  let wordWidth := b.x1 - b.x0
  match seg.type with
  | .strikethrough =>
    let midY := (b.y0 + b.y1) / 2
    let xs := rangeZ (truncQ (b.x0 - 3)) (truncQ (b.x1 + 3))
    let pts := xs.enum.map fun ki =>
      ((ki.2 : ℚ), midY + uniform (-(3/2)) (3/2) (r (i + 3 + ki.1)))
    let n := xs.length
    let lineOps := if 1 < pts.length then
        [DrawOp.line pts (cfg.inkR, cfg.inkG, cfg.inkB, 200) 2] else []
    let corrY := b.y0 - (cfg.fontSize : ℚ) * cfg.scale - 2
    ([DrawOp.text (posX, posY) seg.text fs ink] ++ lineOps ++
        [DrawOp.text (posX + uniform (-3) 3 (r (i + 3 + n)), corrY)
          (seg.correction.getD []) (cfg.smallSize : ℚ)
          (cfg.inkR, cfg.inkG, cfg.inkB, ((⌊alpha * (9/10)⌋ : ℤ) : ℚ))],
      cursorX + wordWidth + uniform 4 8 (r (i + 4 + n)) * cfg.scale, i + 5 + n)
  | .error =>
    let midY := (b.y0 + b.y1) / 2
    let corrY := b.y0 - (cfg.fontSize : ℚ) * cfg.scale - 2
    ([DrawOp.text (posX, posY) seg.text fs ink,
        DrawOp.line [(b.x0, midY), (b.x1, midY)]
          (cfg.inkR, cfg.inkG, cfg.inkB, 150) 1,
        DrawOp.text (posX + uniform (-2) 2 (r (i + 3)), corrY)
          (seg.correction.getD []) (cfg.smallSize : ℚ)
          (cfg.inkR, cfg.inkG, cfg.inkB, ((⌊alpha * (9/10)⌋ : ℤ) : ℚ))],
      cursorX + wordWidth + uniform 4 8 (r (i + 4)) * cfg.scale, i + 5)
  | .erasure =>
    ([DrawOp.text (posX, posY) seg.text fs (cfg.inkR, cfg.inkG, cfg.inkB, 60),
        DrawOp.text (posX + uniform 1 3 (r (i + 3)), posY + uniform (-1) 1 (r (i + 4)))
          seg.text fs ink],
      cursorX + wordWidth + uniform 4 8 (r (i + 5)) * cfg.scale, i + 6)
  | .normal =>
    ([DrawOp.text (posX, posY) seg.text fs ink],
      cursorX + wordWidth + uniform 4 8 (r (i + 3)) * cfg.scale, i + 4)

/-- `HandwritingEngine._render_line`: the segment loop, threading the cursor
x position and the draw index; returns all emitted draw ops in order. -/
def renderLine (fm : FontMetric) (cfg : RenderCfg) (r : ℕ → ℚ) :
    List Segment → ℕ → ℚ → ℚ → List DrawOp × ℕ
  | [], i, _, _ => ([], i)
  | seg :: segs, i, cx, y =>
    let res := renderSegment fm cfg r i cx y seg
    let rest := renderLine fm cfg r segs res.2.2 res.2.1 y
    (res.1 ++ rest.1, rest.2)

/-- The claim's notion of an underline: a drawn line lying entirely at or
below the bottom of the text's bounding box. -/
def isUnderlineBeneath (b : BBox) : DrawOp → Prop
  | .line pts _ _ => pts ≠ [] ∧ ∀ pt ∈ pts, b.y1 ≤ pt.2
  | _ => False

/-- A concrete metric: width `size·length`, glyphs spanning `[0, size]`
below the anchor. -/
def fmW : FontMetric := ⟨fun s t => s * (t.length : ℚ), fun _ => 0, fun s => s⟩

/-- A concrete configuration: font size 18, scale 1, ink `#1a1a2e`. -/
def cfgW : RenderCfg := ⟨18, 1, 26, 26, 46⟩

/-- C5 (counterexample) — rendering the misspelled segment `"helo"`
(correction `"hello"`) at (10, 100) with font size 18, scale 1 and a
constant-half draw stream: the word's bounding box spans y ∈ [100, 118], and
the light thin line of the misspelling marker is drawn at y = 109 — the
vertical midpoint of the word, strictly above its bottom — so it is a
strikethrough through the word, not an underline beneath it. -/
theorem misspelled_marker_not_beneath_text :
    (renderSegment fmW cfgW (fun _ => 1/2) 0 10 100
          ⟨['h', 'e', 'l', 'o'], .error, some ['h', 'e', 'l', 'l', 'o']⟩).1 =
        [DrawOp.text (10, 100) ['h', 'e', 'l', 'o'] 18 (26, 26, 46, 223),
          DrawOp.line [(10, 109), (82, 109)] (26, 26, 46, 150) 1,
          DrawOp.text (10, 80) ['h', 'e', 'l', 'l', 'o'] 13 (26, 26, 46, 200)] ∧
      textbbox fmW 18 (10, 100) ['h', 'e', 'l', 'o'] = ⟨10, 100, 82, 118⟩ ∧
      ¬ isUnderlineBeneath ⟨10, 100, 82, 118⟩
          (DrawOp.line [(10, 109), (82, 109)] (26, 26, 46, 150) 1) := by
  refine ⟨?_, ?_, ?_⟩
  · simp only [renderSegment, uniform, textbbox, truncQ, fmW, cfgW,
      RenderCfg.smallSize]
    norm_num [Int.floor_eq_iff]
  · simp only [textbbox, fmW]
    norm_num
  · rw [isUnderlineBeneath]
    intro hcon
    have h9 := hcon.2 (10, 109) (by simp)
    norm_num at h9

/-- C5 (amended) — for every font metric whose glyph box has positive height,
every configuration with `font_size ≥ 1` and nonnegative scale, every draw
stream and every Misspelled segment, the stroke renderer emits exactly three
draw calls, in order: the misspelled text in the regular font; a straight
horizontal light thin line (alpha 150, width 1) spanning the word at the
vertical midpoint of its bounding box — strictly between the box's top and
bottom, i.e. a light strikethrough through the word rather than an underline
beneath it; and the correct word, in the strictly smaller annotation font,
at a y strictly above the word's bounding box. -/
theorem misspelled_rendering (fm : FontMetric) (cfg : RenderCfg) (r : ℕ → ℚ)
    (i : ℕ) (cx y : ℚ) (txt corr : List Char) (hfs : 1 ≤ cfg.fontSize)
    (hscale : 0 ≤ cfg.scale)
    (htb : fm.top (cfg.fontSize : ℚ) < fm.bottom (cfg.fontSize : ℚ)) :
    ∃ pos1 : ℚ × ℚ, ∃ fill1 fill2 : ℚ × ℚ × ℚ × ℚ, ∃ corrX : ℚ, ∃ b : BBox,
      b = textbbox fm (cfg.fontSize : ℚ) pos1 txt ∧
      (renderSegment fm cfg r i cx y ⟨txt, .error, some corr⟩).1 =
        [DrawOp.text pos1 txt (cfg.fontSize : ℚ) fill1,
          DrawOp.line [(b.x0, (b.y0 + b.y1) / 2), (b.x1, (b.y0 + b.y1) / 2)]
            (cfg.inkR, cfg.inkG, cfg.inkB, 150) 1,
          DrawOp.text (corrX, b.y0 - (cfg.fontSize : ℚ) * cfg.scale - 2) corr
            (cfg.smallSize : ℚ) fill2] ∧
      b.y0 < (b.y0 + b.y1) / 2 ∧
      (b.y0 + b.y1) / 2 < b.y1 ∧
      b.y0 - (cfg.fontSize : ℚ) * cfg.scale - 2 < b.y0 ∧
      cfg.smallSize < cfg.fontSize := by
  refine ⟨(cx + uniform (-2) 2 (r i) * cfg.scale,
      y + uniform (-(3/2)) (3/2) (r (i + 1)) * cfg.scale),
    (cfg.inkR, cfg.inkG, cfg.inkB,
      ((⌊255 * uniform (3/4) 1 (r (i + 2))⌋ : ℤ) : ℚ)),
    (cfg.inkR, cfg.inkG, cfg.inkB,
      ((⌊((⌊255 * uniform (3/4) 1 (r (i + 2))⌋ : ℤ) : ℚ) * (9/10)⌋ : ℤ) : ℚ)),
    cx + uniform (-2) 2 (r i) * cfg.scale + uniform (-2) 2 (r (i + 3)),
    textbbox fm (cfg.fontSize : ℚ)
      (cx + uniform (-2) 2 (r i) * cfg.scale,
        y + uniform (-(3/2)) (3/2) (r (i + 1)) * cfg.scale) txt,
    rfl, rfl, ?_, ?_, ?_, ?_⟩
  · simp only [textbbox]
    linarith
  · simp only [textbbox]
    linarith
  · have h1 : (1 : ℚ) ≤ (cfg.fontSize : ℚ) := by exact_mod_cast hfs
    nlinarith
  · rw [RenderCfg.smallSize]
    omega

/-- Witness for `misspelled_rendering` at the concrete metric and
configuration of the counterexample. -/
theorem misspelled_rendering_witness :
    ∃ pos1 : ℚ × ℚ, ∃ fill1 fill2 : ℚ × ℚ × ℚ × ℚ, ∃ corrX : ℚ, ∃ b : BBox,
      b = textbbox fmW (cfgW.fontSize : ℚ) pos1 ['h', 'e', 'l', 'o'] ∧
      (renderSegment fmW cfgW (fun _ => 1/2) 0 10 100
          ⟨['h', 'e', 'l', 'o'], .error, some ['h', 'e', 'l', 'l', 'o']⟩).1 =
        [DrawOp.text pos1 ['h', 'e', 'l', 'o'] (cfgW.fontSize : ℚ) fill1,
          DrawOp.line [(b.x0, (b.y0 + b.y1) / 2), (b.x1, (b.y0 + b.y1) / 2)]
            (cfgW.inkR, cfgW.inkG, cfgW.inkB, 150) 1,
          DrawOp.text (corrX, b.y0 - (cfgW.fontSize : ℚ) * cfgW.scale - 2)
            ['h', 'e', 'l', 'l', 'o'] (cfgW.smallSize : ℚ) fill2] ∧
      b.y0 < (b.y0 + b.y1) / 2 ∧
      (b.y0 + b.y1) / 2 < b.y1 ∧
      b.y0 - (cfgW.fontSize : ℚ) * cfgW.scale - 2 < b.y0 ∧
      cfgW.smallSize < cfgW.fontSize :=
  misspelled_rendering fmW cfgW (fun _ => 1/2) 0 10 100
    ['h', 'e', 'l', 'o'] ['h', 'e', 'l', 'l', 'o']
    (by decide) (by decide)
    (by simp only [fmW, cfgW]; norm_num)

end T2H
